import Mathlib

/-!
Verification of the expression engine of the Calculator repository.

The development shallowly embeds the JavaScript source (the advanced
calculator script, called `Engine` below, and the basic `script.js`,
called `Basic` below).  JavaScript numbers are idealised as exact
rationals extended with the special values `Infinity`, `-Infinity`,
`NaN` and `undefined`; the transcendental library primitives
(`Math.sin`, `Math.pow` on non-integer exponents, the decimal rendering
of `String(x)` and `toExponential`) are kept abstract in a `Platform`
structure, since their exact values depend on the IEEE-754 binary64
format that is not modelled here.  Everything else — the token
classification, the shunting-yard converter `toRPN`, the stack
evaluator `evalRPN`, the calculator state machine — is translated
directly from the source.
-/

namespace Calculator

/-! ## Tokens

The source works on string tokens and classifies them: by the
`isNumberToken` regular expression, by membership in the `OPERATORS`
table, by equality with `'pi'`, `'e'`, `'('`, `')'`, and treats every
remaining string as a function name.  These classes are disjoint, so
the embedding replaces the string alphabet by a sum type with one
constructor per class; a number token is abstracted to the rational
value that `parseFloat` gives its literal. -/

/-- The five binary operator symbols of the `OPERATORS` table
(source: `src/unnamed/part_000` lines 221-227). -/
inductive Op where
  | add | sub | mul | div | pow
  deriving DecidableEq

/-- The unary function names recognised by the `evalRPN` switch
(source: `src/unnamed/part_000` lines 288-298). -/
inductive Fname where
  | sin | cos | tan | ln | log | sqrt | neg | square | reciprocal
  deriving DecidableEq

/-- The two constant names `'pi'` and `'e'`. -/
inductive Const where
  | cpi | ce
  deriving DecidableEq

/-- A classified expression token. -/
inductive Token where
  | num (q : ℚ)
  | konst (c : Const)
  | op (o : Op)
  | lparen
  | rparen
  | fn (f : Fname)
  deriving DecidableEq

/-- Operator precedence, the `prec` field of `OPERATORS`. -/
def prec : Op → ℕ
  | .add => 2
  | .sub => 2
  | .mul => 3
  | .div => 3
  | .pow => 4

/-- Left associativity, the `assoc` field of `OPERATORS` (`'L'` ↦ `true`). -/
def assocL : Op → Bool
  | .pow => false
  | _ => true

/-! ## The shunting-yard converter `toRPN`
(source: `src/unnamed/part_000` lines 238-269). -/

/-- The condition of the inner `while` loop of `toRPN` for an incoming
operator `t` looking at a stack top `s`: the top must itself be in
`OPERATORS`, and the associativity/precedence comparison must hold. -/
def popCond (t : Op) (s : Token) : Bool :=
  match s with
  | .op o2 => if assocL t then decide (prec t ≤ prec o2) else decide (prec t < prec o2)
  | _ => false

/-- Recogniser for the `'('` marker, used by the `')'` loop. -/
def isLParenTok : Token → Bool
  | .lparen => true
  | _ => false

/-- The main loop of `toRPN`.  `out` is the output sequence, `ops` the
operator stack with its top at the head.  The final case is the
end-of-input drain `while (ops.length) output.push(ops.pop())` — note
that the source never signals an error: a `')'` with no matching `'('`
just drains the stack (the extra `ops.pop()` on an empty stack is a
no-op in JavaScript), and an unmatched `'('` is drained into the
output like any other stack entry. -/
def toRPNgo : List Token → List Token → List Token → List Token
  | [], out, ops => out ++ ops
  | t :: ts, out, ops =>
    match t with
    | .num q => toRPNgo ts (out ++ [Token.num q]) ops
    | .konst c => toRPNgo ts (out ++ [Token.konst c]) ops
    | .op o =>
        toRPNgo ts (out ++ ops.takeWhile (popCond o)) (Token.op o :: ops.dropWhile (popCond o))
    | .lparen => toRPNgo ts out (Token.lparen :: ops)
    | .rparen =>
        toRPNgo ts (out ++ ops.takeWhile (fun s => !isLParenTok s))
          (ops.dropWhile (fun s => !isLParenTok s)).tail
    | .fn f => toRPNgo ts out (Token.fn f :: ops)

/-- Infix-to-postfix conversion, `toRPN` of the source. -/
def toRPN (tokens : List Token) : List Token :=
  toRPNgo tokens [] []

/-! ## JavaScript numbers

A JavaScript number is idealised as an exact rational or one of the
special values.  `undef` is the `undefined` produced by `Array.pop()`
on an empty array; arithmetic coerces it to `NaN`.  The binary64
rounding of every operation, signed zero, and overflow to infinity are
not modelled. -/

/-- Idealised JavaScript numeric value (plus `undefined`). -/
inductive JSVal where
  | num (q : ℚ)
  | inf
  | ninf
  | nan
  | undef
  deriving DecidableEq

/-- The exact rational value of the binary64 constant `Math.PI`. -/
def piQ : ℚ := 884279719003555 / 281474976710656

/-- The exact rational value of the binary64 constant `Math.E`. -/
def eQ : ℚ := 6121026514868073 / 2251799813685248

/-- Value pushed by `evalRPN` for a constant token. -/
def constVal : Const → JSVal
  | .cpi => JSVal.num piQ
  | .ce => JSVal.num eQ

/-- The library primitives whose values depend on the binary64 format:
the transcendental `Math` functions on finite arguments, `Math.pow` on
a positive base with a non-integer exponent, and the two rendering
routines used by `formatNumber` (`String(x)` on a finite number and
`Number.prototype.toExponential(10)`).  They are abstract; every
theorem below holds for an arbitrary platform. -/
structure Platform where
  psin : ℚ → ℚ
  pcos : ℚ → ℚ
  ptan : ℚ → ℚ
  pln : ℚ → ℚ
  plog10 : ℚ → ℚ
  psqrt : ℚ → ℚ
  ppow : ℚ → ℚ → ℚ
  fmtFinite : ℚ → String
  fmtExp : ℚ → String

/-- A trivial platform instance, used to state closed concrete facts. -/
def dummyPrims : Platform where
  psin := fun _ => 0
  pcos := fun _ => 0
  ptan := fun _ => 0
  pln := fun _ => 0
  plog10 := fun _ => 0
  psqrt := fun _ => 0
  ppow := fun _ _ => 0
  fmtFinite := fun _ => ""
  fmtExp := fun _ => ""

/-- JavaScript unary minus on the value domain. -/
def jsNeg : JSVal → JSVal
  | .num q => .num (-q)
  | .inf => .ninf
  | .ninf => .inf
  | _ => .nan

/-- JavaScript `a + b` (numeric addition). -/
def jsAdd : JSVal → JSVal → JSVal
  | .nan, _ => .nan
  | .undef, _ => .nan
  | _, .nan => .nan
  | _, .undef => .nan
  | .inf, .ninf => .nan
  | .ninf, .inf => .nan
  | .inf, _ => .inf
  | .ninf, _ => .ninf
  | _, .inf => .inf
  | _, .ninf => .ninf
  | .num a, .num b => .num (a + b)

/-- JavaScript `a - b`. -/
def jsSub : JSVal → JSVal → JSVal
  | .nan, _ => .nan
  | .undef, _ => .nan
  | _, .nan => .nan
  | _, .undef => .nan
  | .inf, .inf => .nan
  | .ninf, .ninf => .nan
  | .inf, _ => .inf
  | .ninf, _ => .ninf
  | _, .inf => .ninf
  | _, .ninf => .inf
  | .num a, .num b => .num (a - b)

/-- JavaScript `a * b`. -/
def jsMul : JSVal → JSVal → JSVal
  | .nan, _ => .nan
  | .undef, _ => .nan
  | _, .nan => .nan
  | _, .undef => .nan
  | .inf, .inf => .inf
  | .inf, .ninf => .ninf
  | .ninf, .inf => .ninf
  | .ninf, .ninf => .inf
  | .inf, .num b => if b = 0 then .nan else if 0 < b then .inf else .ninf
  | .ninf, .num b => if b = 0 then .nan else if 0 < b then .ninf else .inf
  | .num a, .inf => if a = 0 then .nan else if 0 < a then .inf else .ninf
  | .num a, .ninf => if a = 0 then .nan else if 0 < a then .ninf else .inf
  | .num a, .num b => .num (a * b)

/-- JavaScript `a / b` (note: the `OPERATORS` table divides directly,
with no zero test; `x / 0` is an infinity or `NaN` in JavaScript). -/
def jsDiv : JSVal → JSVal → JSVal
  | .nan, _ => .nan
  | .undef, _ => .nan
  | _, .nan => .nan
  | _, .undef => .nan
  | .inf, .inf => .nan
  | .inf, .ninf => .nan
  | .ninf, .inf => .nan
  | .ninf, .ninf => .nan
  | .inf, .num b => if 0 ≤ b then .inf else .ninf
  | .ninf, .num b => if 0 ≤ b then .ninf else .inf
  | .num _, .inf => .num 0
  | .num _, .ninf => .num 0
  | .num a, .num b =>
      if b = 0 then (if a = 0 then .nan else if 0 < a then .inf else .ninf)
      else .num (a / b)

/-- Does a rational denote an odd integer? -/
def isOddInt (q : ℚ) : Bool :=
  decide (q.den = 1) && decide (q.num % 2 = 1)

/-- JavaScript `Math.pow a b`, following the case list of the
ECMAScript `Number::exponentiate` operation (in particular any base
with exponent `0` gives `1`, and a negative base with a non-integer
exponent gives `NaN`).  An integer exponent is computed exactly; the
remaining finite case — positive base, non-integer exponent — is the
abstract platform primitive. -/
def jsPow (P : Platform) : JSVal → JSVal → JSVal
  | a, .num qb =>
      if qb = 0 then .num 1
      else match a with
        | .nan => .nan
        | .undef => .nan
        | .inf => if 0 < qb then .inf else .num 0
        | .ninf =>
            if 0 < qb then (if isOddInt qb then .ninf else .inf) else .num 0
        | .num qa =>
            if qa = 0 then (if 0 < qb then .num 0 else .inf)
            else if qb.den = 1 then .num (qa ^ qb.num)
            else if qa < 0 then .nan
            else .num (P.ppow qa qb)
  | .nan, .inf => .nan
  | .undef, .inf => .nan
  | .inf, .inf => .inf
  | .ninf, .inf => .inf
  | .num qa, .inf => if qa = 1 ∨ qa = -1 then .nan else if 1 < |qa| then .inf else .num 0
  | .nan, .ninf => .nan
  | .undef, .ninf => .nan
  | .inf, .ninf => .num 0
  | .ninf, .ninf => .num 0
  | .num qa, .ninf => if qa = 1 ∨ qa = -1 then .nan else if 1 < |qa| then .num 0 else .inf
  | _, .nan => .nan
  | _, .undef => .nan

/-- The `fn` field of the `OPERATORS` table: the function applied by
`evalRPN` for each binary operator. -/
def applyOp (P : Platform) : Op → JSVal → JSVal → JSVal
  | .add, a, b => jsAdd a b
  | .sub, a, b => jsSub a b
  | .mul, a, b => jsMul a b
  | .div, a, b => jsDiv a b
  | .pow, a, b => jsPow P a b

/-! ## The postfix evaluator `evalRPN`
(source: `src/unnamed/part_000` lines 271-304). -/

/-- The `switch` of the function branch of `evalRPN`, applied to the
popped value `a` (which is `undefined` when the stack was empty; the
`Math` functions and comparisons turn that into `NaN`).  `dm` is
`state.degMode`.  Trigonometric functions on a degree input first
compute `a * Math.PI / 180`. -/
def mathFn (P : Platform) (dm : Bool) : Fname → JSVal → JSVal
  | .sin, .num q => .num (if dm then P.psin (q * piQ / 180) else P.psin q)
  | .sin, _ => .nan
  | .cos, .num q => .num (if dm then P.pcos (q * piQ / 180) else P.pcos q)
  | .cos, _ => .nan
  | .tan, .num q => .num (if dm then P.ptan (q * piQ / 180) else P.ptan q)
  | .tan, _ => .nan
  | .ln, .num q => if q = 0 then .ninf else if q < 0 then .nan else .num (P.pln q)
  | .ln, .inf => .inf
  | .ln, _ => .nan
  | .log, .num q => if q = 0 then .ninf else if q < 0 then .nan else .num (P.plog10 q)
  | .log, .inf => .inf
  | .log, _ => .nan
  | .sqrt, .num q => if q < 0 then .nan else .num (P.psqrt q)
  | .sqrt, .inf => .inf
  | .sqrt, _ => .nan
  | .neg, v => jsNeg v
  | .square, v => jsMul v v
  | .reciprocal, .num q => if q = 0 then .inf else .num (1 / q)
  | .reciprocal, .inf => .num 0
  | .reciprocal, .ninf => .num 0
  | .reciprocal, _ => .nan

/-- The loop of `evalRPN`.  The value stack has its top at the head;
`Array.pop()` on an empty stack yields `undefined` (`JSVal.undef`).
A parenthesis token reaching the evaluator falls into the function
branch, whose `switch` has no case for it, so the popped value is
replaced by the `default:` result `NaN`. -/
def evalRPNgo (P : Platform) (dm : Bool) : List Token → List JSVal → List JSVal
  | [], st => st
  | t :: ts, st =>
    match t with
    | .num q => evalRPNgo P dm ts (JSVal.num q :: st)
    | .konst c => evalRPNgo P dm ts (constVal c :: st)
    | .op o =>
        evalRPNgo P dm ts
          (applyOp P o (st.tail.headD JSVal.undef) (st.headD JSVal.undef) :: st.tail.tail)
    | .lparen => evalRPNgo P dm ts (JSVal.nan :: st.tail)
    | .rparen => evalRPNgo P dm ts (JSVal.nan :: st.tail)
    | .fn f => evalRPNgo P dm ts (mathFn P dm f (st.headD JSVal.undef) :: st.tail)

/-- `evalRPN` of the source: run the loop on an empty stack and return
the final `stack.pop()` (which is `undefined` when nothing is left). -/
def evalRPN (P : Platform) (dm : Bool) (rpn : List Token) : JSVal :=
  (evalRPNgo P dm rpn []).headD JSVal.undef

/-! ## Specification-side definitions

These definitions follow the words of the specification (sections 4.1,
4.2 and 8), not the source; they exist to be compared with the source
functions above. -/

/-- Abstract syntax of the expressions of claim C1: numbers combined
by the five binary operators.  An `Expr` is what "the expression"
denotes once standard precedence has grouped the tokens. -/
inductive Expr where
  | lit (q : ℚ)
  | bin (o : Op) (l r : Expr)

/-- The value of an expression under standard mathematical operator
precedence: evaluate subtrees, then apply the operator (specification
section 8, first property). -/
def Expr.evalSpec (P : Platform) : Expr → JSVal
  | .lit q => .num q
  | .bin o l r => applyOp P o (Expr.evalSpec P l) (Expr.evalSpec P r)

/-- The postfix form of an expression: left operand, right operand,
operator. -/
def rpnOf : Expr → List Token
  | .lit q => [Token.num q]
  | .bin o l r => rpnOf l ++ rpnOf r ++ [Token.op o]

/-- Specification-side grammar: `Parses lvl ts e` states that the
token sequence `ts`, read as infix with standard precedence and
balanced parentheses, denotes the expression `e`.  The index is the
standard precedence-layer level: `2` sums (`+ -`, left associative),
`3` products (`* /`, left associative), `4` power chains (`^`, right
associative), `5` atoms (a number, or a parenthesised sum). -/
inductive Parses : ℕ → List Token → Expr → Prop where
  | num (q : ℚ) : Parses 5 [Token.num q] (Expr.lit q)
  | paren {ts e} : Parses 2 ts e →
      Parses 5 (Token.lparen :: ts ++ [Token.rparen]) e
  | ofPow {ts e} : Parses 5 ts e → Parses 4 ts e
  | powStep {ts1 e1 ts2 e2} : Parses 5 ts1 e1 → Parses 4 ts2 e2 →
      Parses 4 (ts1 ++ Token.op Op.pow :: ts2) (Expr.bin Op.pow e1 e2)
  | ofMul {ts e} : Parses 4 ts e → Parses 3 ts e
  | mulStep {ts1 e1 o ts2 e2} : Parses 3 ts1 e1 → (o = Op.mul ∨ o = Op.div) →
      Parses 4 ts2 e2 → Parses 3 (ts1 ++ Token.op o :: ts2) (Expr.bin o e1 e2)
  | ofSum {ts e} : Parses 3 ts e → Parses 2 ts e
  | sumStep {ts1 e1 o ts2 e2} : Parses 2 ts1 e1 → (o = Op.add ∨ o = Op.sub) →
      Parses 3 ts2 e2 → Parses 2 (ts1 ++ Token.op o :: ts2) (Expr.bin o e1 e2)

/-- The error kinds named by the specification (section 7). -/
inductive CalcError where
  | malformedExpression
  | stackUnderflow
  deriving DecidableEq

/-- Specification-side converter (section 4.1): identical shunting
yard, but a `')'` that empties the stack without finding a `'('`, or a
`'('` still on the stack at end of input, fails with
`MalformedExpression`. -/
def specToRPNgo : List Token → List Token → List Token →
    Except CalcError (List Token)
  | [], out, ops =>
      if Token.lparen ∈ ops then .error .malformedExpression else .ok (out ++ ops)
  | t :: ts, out, ops =>
    match t with
    | .num q => specToRPNgo ts (out ++ [Token.num q]) ops
    | .konst c => specToRPNgo ts (out ++ [Token.konst c]) ops
    | .op o =>
        specToRPNgo ts (out ++ ops.takeWhile (popCond o))
          (Token.op o :: ops.dropWhile (popCond o))
    | .lparen => specToRPNgo ts out (Token.lparen :: ops)
    | .rparen =>
        if Token.lparen ∈ ops then
          specToRPNgo ts (out ++ ops.takeWhile (fun s => !isLParenTok s))
            (ops.dropWhile (fun s => !isLParenTok s)).tail
        else .error .malformedExpression
    | .fn f => specToRPNgo ts out (Token.fn f :: ops)

/-- Specification-side conversion entry point. -/
def specToRPN (tokens : List Token) : Except CalcError (List Token) :=
  specToRPNgo tokens [] []

/-- Specification-side postfix evaluator (section 4.2): a pop from an
empty stack fails with `StackUnderflow`; end of input with more than
one value fails with `MalformedExpression`; end of input with exactly
one value returns it.  Following the design note of section 9, a token
the evaluator does not know (a stray parenthesis) is also treated as
`StackUnderflow` rather than new behaviour. -/
def specEvalRPNgo (P : Platform) (dm : Bool) : List Token → List JSVal →
    Except CalcError JSVal
  | [], st =>
      match st with
      | [v] => .ok v
      | [] => .error .stackUnderflow
      | _ => .error .malformedExpression
  | t :: ts, st =>
    match t with
    | .num q => specEvalRPNgo P dm ts (JSVal.num q :: st)
    | .konst c => specEvalRPNgo P dm ts (constVal c :: st)
    | .op o =>
        match st with
        | b :: a :: rest => specEvalRPNgo P dm ts (applyOp P o a b :: rest)
        | _ => .error .stackUnderflow
    | .fn f =>
        match st with
        | a :: rest => specEvalRPNgo P dm ts (mathFn P dm f a :: rest)
        | [] => .error .stackUnderflow
    | _ => .error .stackUnderflow

/-- Specification-side evaluation entry point. -/
def specEvalRPN (P : Platform) (dm : Bool) (rpn : List Token) :
    Except CalcError JSVal :=
  specEvalRPNgo P dm rpn []

/-- Specification-side precedence of a stack entry when functions are
read as operators of lowest precedence (section 4.1, function bullet). -/
def tokenPrec : Token → ℕ
  | .op o => prec o
  | _ => 0

/-- Specification-side pop condition for an incoming operator `t`
against a stack top `s`, with a function on the stack treated
identically to an operator of lowest precedence. -/
def specPopCond (t : Op) (s : Token) : Bool :=
  match s with
  | .op _ =>
      if assocL t then decide (prec t ≤ tokenPrec s) else decide (prec t < tokenPrec s)
  | .fn _ =>
      if assocL t then decide (prec t ≤ tokenPrec s) else decide (prec t < tokenPrec s)
  | _ => false

/-! ## The calculator state machine

The remaining definitions embed the stateful engine: the `state`
object and the input handlers.  Strings stay strings here, because the
handlers build and compare display strings. -/

/-- Numeric value of a digit character. -/
def digitVal (c : Char) : ℕ := c.toNat - 48

/-- Value of a digit string read in base 10. -/
def natOfDigits (cs : List Char) : ℕ :=
  cs.foldl (fun n c => 10 * n + digitVal c) 0

/-- Does the character list start with the word `Infinity`? -/
def startsWithInfinity : List Char → Bool
  | 'I' :: 'n' :: 'f' :: 'i' :: 'n' :: 'i' :: 't' :: 'y' :: _ => true
  | _ => false

/-- Exponent suffix of a numeric literal (after the `e`). -/
def expValOf (r : List Char) : ℤ :=
  match r with
  | '-' :: t => -(natOfDigits (t.takeWhile Char.isDigit) : ℤ)
  | '+' :: t => (natOfDigits (t.takeWhile Char.isDigit) : ℤ)
  | _ => (natOfDigits (r.takeWhile Char.isDigit) : ℤ)

/-- Model of the JavaScript `parseFloat` builtin on the string forms
the engine produces: an optional sign followed by `Infinity`, or by a
decimal literal (integer part, optional fraction, optional exponent);
a string whose longest such prefix has no digits parses to `NaN`.
Leading whitespace is not modelled (the engine never produces it). -/
def jsParseFloat (s : String) : JSVal :=
  let cs := s.toList
  let neg : Bool :=
    match cs with
    | '-' :: _ => true
    | _ => false
  let cs1 :=
    match cs with
    | '-' :: r => r
    | '+' :: r => r
    | _ => cs
  if startsWithInfinity cs1 then (if neg then .ninf else .inf)
  else
    let ip := cs1.takeWhile Char.isDigit
    let cs2 := cs1.dropWhile Char.isDigit
    let fp :=
      match cs2 with
      | '.' :: r => r.takeWhile Char.isDigit
      | _ => []
    let cs3 :=
      match cs2 with
      | '.' :: r => r.dropWhile Char.isDigit
      | _ => cs2
    if ip.isEmpty && fp.isEmpty then .nan
    else
      let mag : ℚ := (natOfDigits ip : ℚ) + (natOfDigits fp : ℚ) / (10 : ℚ) ^ fp.length
      let ex : ℤ :=
        match cs3 with
        | 'e' :: r => expValOf r
        | 'E' :: r => expValOf r
        | _ => 0
      .num ((if neg then -mag else mag) * (10 : ℚ) ^ ex)

/-- Model of JavaScript `String(x)` on a number: the special values
render concretely, a finite value by the abstract platform renderer. -/
def jsToString (P : Platform) : JSVal → String
  | .num q => P.fmtFinite q
  | .inf => "Infinity"
  | .ninf => "-Infinity"
  | .nan => "NaN"
  | .undef => "undefined"

/-- `MAX_DISPLAY_LENGTH` of the source. -/
def MAX_DISPLAY_LENGTH : ℕ := 16

/-- `formatNumber` (source: `src/unnamed/part_000` lines 135-145): a
non-finite value renders as `Error`; a finite value is rounded by
`Math.round(n * 1e12) / 1e12` (JavaScript `Math.round` is
`⌊x + 1/2⌋`), rendered plainly, and re-rendered with
`toExponential(10)` when the plain rendering exceeds 16 characters. -/
def formatNumber (P : Platform) : JSVal → String
  | .num q =>
      let rounded : ℚ := (((q * 10 ^ 12 + 1 / 2).floor : ℤ) : ℚ) / 10 ^ 12
      let s := P.fmtFinite rounded
      if MAX_DISPLAY_LENGTH < s.length then P.fmtExp rounded else s
  | _ => "Error"

/-- The advanced unary operations table `unaryOps`
(source: `src/unnamed/part_000` lines 352-357). -/
inductive UnaryOp where
  | negate | sqrt | square | reciprocal
  deriving DecidableEq

/-- Application of a `unaryOps` entry to a JavaScript number. -/
def unaryApply (P : Platform) : UnaryOp → JSVal → JSVal
  | .negate, x => jsNeg x
  | .sqrt, .num q => if q < 0 then .nan else .num (P.psqrt q)
  | .sqrt, .inf => .inf
  | .sqrt, _ => .nan
  | .square, x => jsMul x x
  | .reciprocal, .num q => if q = 0 then .inf else .num (1 / q)
  | .reciprocal, .inf => .num 0
  | .reciprocal, .ninf => .num 0
  | .reciprocal, _ => .nan

namespace Engine

/-- The `state` object of the advanced calculator
(source: `src/unnamed/part_000` lines 121-130). -/
structure CalcState where
  displayValue : String
  firstOperand : Option JSVal
  operator : Option String
  waitingForSecondOperand : Bool
  memory : JSVal
  exprTokens : List String
  currentToken : String
  degMode : Bool
  deriving DecidableEq

/-- The initial state. -/
def initState : CalcState where
  displayValue := "0"
  firstOperand := none
  operator := none
  waitingForSecondOperand := false
  memory := JSVal.num 0
  exprTokens := []
  currentToken := ""
  degMode := false

/-- `resetCalculator` (lines 155-160): note that it does NOT clear
`currentToken` or `exprTokens`. -/
def resetCalculator (s : CalcState) : CalcState :=
  { s with displayValue := "0", firstOperand := none, operator := none,
           waitingForSecondOperand := false }

/-- `inputDigit` (lines 162-166): appends the digit to the current
token (replacing a lone `"0"`) with no check of the display. -/
def inputDigit (digit : String) (s : CalcState) : CalcState :=
  let ct := if s.currentToken = "0" then digit else s.currentToken ++ digit
  { s with currentToken := ct, displayValue := ct }

/-- The `map[nextOperator] || nextOperator` table of `handleOperator`. -/
def opSymbol (nextOperator : String) : String :=
  if nextOperator = "add" then "+"
  else if nextOperator = "subtract" then "-"
  else if nextOperator = "multiply" then "*"
  else if nextOperator = "divide" then "/"
  else nextOperator

/-- `handleOperator` (lines 316-326): push the pending current token,
then push the operator symbol. -/
def handleOperator (nextOperator : String) (s : CalcState) : CalcState :=
  let s1 :=
    if s.currentToken = "" then s
    else { s with exprTokens := s.exprTokens ++ [s.currentToken], currentToken := "" }
  { s1 with exprTokens := s1.exprTokens ++ [opSymbol nextOperator] }

/-- `applyUnary` (lines 359-372): parse the target, apply the unary
operation, store `String(result)` back into a non-empty current token,
display the formatted result, and on `Error` run `resetCalculator`
(which leaves `currentToken` and `exprTokens` alone) before forcing
the display to `Error`. -/
def applyUnary (P : Platform) (op : UnaryOp) (s : CalcState) : CalcState :=
  let target := if s.currentToken = "" then s.displayValue else s.currentToken
  let value := jsParseFloat target
  if value = JSVal.nan then s
  else
    let result := unaryApply P op value
    let formatted := formatNumber P result
    let s1 :=
      if s.currentToken = "" then s else { s with currentToken := jsToString P result }
    let s2 := { s1 with displayValue := formatted }
    if formatted = "Error" then { resetCalculator s2 with displayValue := "Error" }
    else s2

/-- `memoryClear` (lines 383-385). -/
def memoryClear (s : CalcState) : CalcState :=
  { s with memory := JSVal.num 0 }

/-- `memoryPlus` (lines 390-393): add the parsed display value to the
memory register unless it parses to `NaN`. -/
def memoryPlus (s : CalcState) : CalcState :=
  let v := jsParseFloat s.displayValue
  if v = JSVal.nan then s else { s with memory := jsAdd s.memory v }

/-- `memoryMinus` (lines 394-397). -/
def memoryMinus (s : CalcState) : CalcState :=
  let v := jsParseFloat s.displayValue
  if v = JSVal.nan then s else { s with memory := jsSub s.memory v }

end Engine

namespace Basic

/-- The `state` object of the basic calculator (`src/script.js` lines
14-20). -/
structure BState where
  displayValue : String
  firstOperand : Option JSVal
  operator : Option String
  waitingForSecondOperand : Bool
  memory : JSVal
  deriving DecidableEq

/-- The initial state of the basic calculator. -/
def initState : BState where
  displayValue := "0"
  firstOperand := none
  operator := none
  waitingForSecondOperand := false
  memory := JSVal.num 0

/-- `resetCalculator` (`src/script.js` lines 41-46). -/
def resetCalculator (s : BState) : BState :=
  { s with displayValue := "0", firstOperand := none, operator := none,
           waitingForSecondOperand := false }

/-- `inputDigit` (`src/script.js` lines 48-56): with no pending
operator entry, the digit is appended to whatever the display shows
(replacing a lone `"0"`), with no check for `Error`. -/
def inputDigit (digit : String) (s : BState) : BState :=
  if s.waitingForSecondOperand then
    { s with displayValue := digit, waitingForSecondOperand := false }
  else
    { s with displayValue := if s.displayValue = "0" then digit else s.displayValue ++ digit }

/-- `applyUnary` (`src/script.js` lines 151-164). -/
def applyUnary (P : Platform) (op : UnaryOp) (s : BState) : BState :=
  let value := jsParseFloat s.displayValue
  if value = JSVal.nan then s
  else
    let result := unaryApply P op value
    let formatted := formatNumber P result
    let s2 := { s with displayValue := formatted }
    if formatted = "Error" then { resetCalculator s2 with displayValue := "Error" }
    else { s2 with waitingForSecondOperand := false }

end Basic

/-! ## Auxiliary predicates used by the proofs -/

/-- `noPop l s`: no operator of precedence at least `l` pops the stack
entry `s`. -/
def noPop (l : ℕ) (s : Token) : Prop :=
  ∀ o : Op, l ≤ prec o → popCond o s = false

/-- `GuardOK l ops`: the top of `ops` (if any) is not popped by any
incoming operator of precedence at least `l`. -/
def GuardOK (l : ℕ) : List Token → Prop
  | [] => True
  | s :: _ => noPop l s

/-- Tokens that `toRPN` sends straight to the output. -/
def isValueTok : Token → Bool
  | .num _ => true
  | .konst _ => true
  | _ => false

/-- Tokens that can appear on the operator stack of `toRPN`. -/
def isStackTok : Token → Bool
  | .op _ => true
  | .fn _ => true
  | .lparen => true
  | _ => false

/-- Two engine states that agree on every field except possibly the
memory register. -/
def sameButMemory (s1 s2 : Engine.CalcState) : Prop :=
  s1.displayValue = s2.displayValue ∧ s1.firstOperand = s2.firstOperand ∧
  s1.operator = s2.operator ∧
  s1.waitingForSecondOperand = s2.waitingForSecondOperand ∧
  s1.exprTokens = s2.exprTokens ∧ s1.currentToken = s2.currentToken ∧
  s1.degMode = s2.degMode

/-! ## List helpers -/

theorem takeWhile_append_of_all {α} (p : α → Bool) {xs : List α} (ys : List α)
    (h : ∀ x ∈ xs, p x = true) : (xs ++ ys).takeWhile p = xs ++ ys.takeWhile p := by
  induction xs with
  | nil => simp
  | cons a l ih =>
      have ha : p a = true := h a (List.mem_cons_self a l)
      simp only [List.cons_append, List.takeWhile_cons, ha, if_true]
      rw [ih fun x hx => h x (List.mem_cons_of_mem a hx)]

theorem dropWhile_append_of_all {α} (p : α → Bool) {xs : List α} (ys : List α)
    (h : ∀ x ∈ xs, p x = true) : (xs ++ ys).dropWhile p = ys.dropWhile p := by
  induction xs with
  | nil => simp
  | cons a l ih =>
      have ha : p a = true := h a (List.mem_cons_self a l)
      simp only [List.cons_append, List.dropWhile_cons, ha, if_true]
      exact ih fun x hx => h x (List.mem_cons_of_mem a hx)

theorem takeWhile_nil_of_head {α} (p : α → Bool) (x : α) (xs : List α)
    (h : p x = false) : (x :: xs).takeWhile p = [] := by
  simp [List.takeWhile_cons, h]

theorem dropWhile_id_of_head {α} (p : α → Bool) (x : α) (xs : List α)
    (h : p x = false) : (x :: xs).dropWhile p = x :: xs := by
  simp [List.dropWhile_cons, h]

/-! ## Facts about the pop condition -/

theorem popCond_pow_false (s : Token) : popCond Op.pow s = false := by
  cases s with
  | op o2 => cases o2 <;> rfl
  | _ => rfl

theorem prec_le_four (o : Op) : prec o ≤ 4 := by cases o <;> decide

theorem two_le_prec (o : Op) : 2 ≤ prec o := by cases o <;> decide

theorem noPop_mono {l l' : ℕ} (h : l ≤ l') {s : Token} (hs : noPop l s) : noPop l' s :=
  fun o ho => hs o (le_trans h ho)

theorem GuardOK_mono {l l' : ℕ} (h : l ≤ l') {ops : List Token} (hg : GuardOK l ops) :
    GuardOK l' ops := by
  cases ops with
  | nil => trivial
  | cons s t => exact noPop_mono h hg

theorem guard_takeWhile_nil {l : ℕ} {o : Op} {ops : List Token}
    (hg : GuardOK l ops) (ho : l ≤ prec o) : ops.takeWhile (popCond o) = [] := by
  cases ops with
  | nil => rfl
  | cons s t => exact takeWhile_nil_of_head _ s t (hg o ho)

theorem guard_dropWhile_id {l : ℕ} {o : Op} {ops : List Token}
    (hg : GuardOK l ops) (ho : l ≤ prec o) : ops.dropWhile (popCond o) = ops := by
  cases ops with
  | nil => rfl
  | cons s t => exact dropWhile_id_of_head _ s t (hg o ho)

theorem noPop_lparen (l : ℕ) : noPop l Token.lparen := fun _ _ => rfl

theorem noPop_fn (l : ℕ) (f : Fname) : noPop l (Token.fn f) := fun _ _ => rfl

/-- A stack entry of precedence below `l` is not popped by operators
of precedence at least `l` (left-associative comparison is `≤`, and
the only right-associative operator, `^`, never pops). -/
theorem noPop_op_of_lt {l : ℕ} {o2 : Op} (h : prec o2 < l) : noPop l (Token.op o2) := by
  intro o ho
  cases o with
  | pow => exact popCond_pow_false _
  | add => simp only [popCond, assocL, if_true]; exact decide_eq_false (by omega)
  | sub => simp only [popCond, assocL, if_true]; exact decide_eq_false (by omega)
  | mul => simp only [popCond, assocL, if_true]; exact decide_eq_false (by omega)
  | div => simp only [popCond, assocL, if_true]; exact decide_eq_false (by omega)

/-- A left-associative incoming operator pops any operator of at least
its precedence. -/
theorem popCond_true_of_le {o o2 : Op} (ha : assocL o = true) (h : prec o ≤ prec o2) :
    popCond o (Token.op o2) = true := by
  simp only [popCond, ha, if_true]
  exact decide_eq_true h

/-- No token at all is popped by an incoming operator of precedence 4
(only `^` has precedence 4, and it never pops). -/
theorem noPop_four (s : Token) : noPop 4 s := by
  intro o ho
  cases o with
  | pow => exact popCond_pow_false s
  | add => exact absurd ho (by decide)
  | sub => exact absurd ho (by decide)
  | mul => exact absurd ho (by decide)
  | div => exact absurd ho (by decide)

theorem GuardOK_four (ops : List Token) : GuardOK 4 ops := by
  cases ops with
  | nil => trivial
  | cons s t => exact noPop_four s

theorem GuardOK_five (ops : List Token) : GuardOK 5 ops :=
  GuardOK_mono (by omega) (GuardOK_four ops)

theorem takeWhile_pow_nil (ops : List Token) : ops.takeWhile (popCond Op.pow) = [] := by
  cases ops with
  | nil => rfl
  | cons s t => exact takeWhile_nil_of_head _ s t (popCond_pow_false s)

theorem dropWhile_pow_id (ops : List Token) : ops.dropWhile (popCond Op.pow) = ops := by
  cases ops with
  | nil => rfl
  | cons s t => exact dropWhile_id_of_head _ s t (popCond_pow_false s)

/-! ## Unfolding equations for the converter loop -/

theorem toRPNgo_nil (out ops : List Token) : toRPNgo [] out ops = out ++ ops := rfl

theorem toRPNgo_num (q : ℚ) (ts out ops : List Token) :
    toRPNgo (Token.num q :: ts) out ops = toRPNgo ts (out ++ [Token.num q]) ops := rfl

theorem toRPNgo_konst (c : Const) (ts out ops : List Token) :
    toRPNgo (Token.konst c :: ts) out ops = toRPNgo ts (out ++ [Token.konst c]) ops := rfl

theorem toRPNgo_op (o : Op) (ts out ops : List Token) :
    toRPNgo (Token.op o :: ts) out ops =
      toRPNgo ts (out ++ ops.takeWhile (popCond o))
        (Token.op o :: ops.dropWhile (popCond o)) := rfl

theorem toRPNgo_lparen (ts out ops : List Token) :
    toRPNgo (Token.lparen :: ts) out ops = toRPNgo ts out (Token.lparen :: ops) := rfl

theorem toRPNgo_rparen (ts out ops : List Token) :
    toRPNgo (Token.rparen :: ts) out ops =
      toRPNgo ts (out ++ ops.takeWhile (fun s => !isLParenTok s))
        ((ops.dropWhile (fun s => !isLParenTok s)).tail) := rfl

theorem toRPNgo_fn (f : Fname) (ts out ops : List Token) :
    toRPNgo (Token.fn f :: ts) out ops = toRPNgo ts out (Token.fn f :: ops) := rfl

/-! ## The shunting-yard invariant

Processing the tokens of a level-`l` subexpression from a stack whose
top cannot be popped at level `l` appends the postfix prefix `D` to
the output and leaves a chain `R` of pending operators of precedence
at least `l` on the stack, with `D ++ R` the postfix form of the
subexpression (`R` is listed top first, which is the order the drain
pops it in). -/

theorem shuntInv {l : ℕ} {ts : List Token} {e : Expr} (h : Parses l ts e) :
    ∀ out ops rest : List Token, GuardOK l ops →
      ∃ D R : List Token, D ++ R = rpnOf e ∧
        (∀ r ∈ R, ∃ o : Op, r = Token.op o ∧ l ≤ prec o) ∧
        toRPNgo (ts ++ rest) out ops = toRPNgo rest (out ++ D) (R ++ ops) := by
  induction h with
  | num q =>
      intro out ops rest _
      refine ⟨[Token.num q], [], rfl, by simp, ?_⟩
      rw [List.cons_append, List.nil_append, toRPNgo_num]
      rfl
  | @paren ts' e' hinner ih =>
      intro out ops rest _
      obtain ⟨D, R, hDR, hR, heq⟩ :=
        ih out (Token.lparen :: ops) ([Token.rparen] ++ rest) (noPop_lparen 2)
      refine ⟨rpnOf e', [], by simp, by simp, ?_⟩
      have hRtrue : ∀ r ∈ R, (fun s => !isLParenTok s) r = true := by
        intro r hr
        obtain ⟨o, rfl, _⟩ := hR r hr
        rfl
      calc toRPNgo ((Token.lparen :: ts' ++ [Token.rparen]) ++ rest) out ops
          = toRPNgo (ts' ++ ([Token.rparen] ++ rest)) out (Token.lparen :: ops) := by
            simp [toRPNgo_lparen]
        _ = toRPNgo ([Token.rparen] ++ rest) (out ++ D) (R ++ Token.lparen :: ops) := heq
        _ = toRPNgo rest
              ((out ++ D) ++ (R ++ Token.lparen :: ops).takeWhile (fun s => !isLParenTok s))
              (((R ++ Token.lparen :: ops).dropWhile (fun s => !isLParenTok s)).tail) := by
            rw [List.singleton_append, toRPNgo_rparen]
        _ = toRPNgo rest (out ++ rpnOf e') ([] ++ ops) := by
            rw [takeWhile_append_of_all _ _ hRtrue, dropWhile_append_of_all _ _ hRtrue,
              takeWhile_nil_of_head _ _ _ (by rfl), dropWhile_id_of_head _ _ _ (by rfl)]
            simp [← hDR]
  | ofPow h5 ih =>
      intro out ops rest _
      obtain ⟨D, R, hDR, hR, heq⟩ := ih out ops rest (GuardOK_five ops)
      refine ⟨D, R, hDR, ?_, heq⟩
      intro r hr
      obtain ⟨o, h1, h2⟩ := hR r hr
      exact ⟨o, h1, by omega⟩
  | @powStep ts1 e1 ts2 e2 a b iha ihb =>
      intro out ops rest _
      obtain ⟨D1, R1, hDR1, hR1, heq1⟩ :=
        iha out ops (Token.op Op.pow :: (ts2 ++ rest)) (GuardOK_five ops)
      have hR1nil : R1 = [] := by
        cases R1 with
        | nil => rfl
        | cons r rs =>
            obtain ⟨o, _, ho⟩ := hR1 r (List.mem_cons_self r rs)
            exact absurd (le_trans ho (prec_le_four o)) (by omega)
      subst hR1nil
      obtain ⟨D2, R2, hDR2, hR2, heq2⟩ :=
        ihb (out ++ D1) (Token.op Op.pow :: ops) rest (GuardOK_four _)
      refine ⟨D1 ++ D2, R2 ++ [Token.op Op.pow], ?_, ?_, ?_⟩
      · rw [rpnOf, ← hDR1, ← hDR2]
        simp
      · intro r hr
        rcases List.mem_append.1 hr with hmem | hmem
        · obtain ⟨o, h1, h2⟩ := hR2 r hmem
          exact ⟨o, h1, h2⟩
        · refine ⟨Op.pow, ?_, by decide⟩
          simpa using hmem
      · calc toRPNgo ((ts1 ++ Token.op Op.pow :: ts2) ++ rest) out ops
            = toRPNgo (ts1 ++ (Token.op Op.pow :: (ts2 ++ rest))) out ops := by simp
          _ = toRPNgo (Token.op Op.pow :: (ts2 ++ rest)) (out ++ D1) ([] ++ ops) := heq1
          _ = toRPNgo (ts2 ++ rest) ((out ++ D1) ++ ops.takeWhile (popCond Op.pow))
                (Token.op Op.pow :: ops.dropWhile (popCond Op.pow)) := by
              rw [List.nil_append, toRPNgo_op]
          _ = toRPNgo (ts2 ++ rest) (out ++ D1) (Token.op Op.pow :: ops) := by
              rw [takeWhile_pow_nil, dropWhile_pow_id, List.append_nil]
          _ = toRPNgo rest ((out ++ D1) ++ D2) (R2 ++ (Token.op Op.pow :: ops)) := heq2
          _ = toRPNgo rest (out ++ (D1 ++ D2)) ((R2 ++ [Token.op Op.pow]) ++ ops) := by
              simp
  | ofMul h4 ih =>
      intro out ops rest hg
      obtain ⟨D, R, hDR, hR, heq⟩ := ih out ops rest (GuardOK_mono (by omega) hg)
      refine ⟨D, R, hDR, ?_, heq⟩
      intro r hr
      obtain ⟨o, h1, h2⟩ := hR r hr
      exact ⟨o, h1, by omega⟩
  | @mulStep ts1 e1 o ts2 e2 a ho b iha ihb =>
      intro out ops rest hg
      have hprec : prec o = 3 := by rcases ho with rfl | rfl <;> rfl
      have hassoc : assocL o = true := by rcases ho with rfl | rfl <;> rfl
      obtain ⟨D1, R1, hDR1, hR1, heq1⟩ :=
        iha out ops (Token.op o :: (ts2 ++ rest)) hg
      obtain ⟨D2, R2, hDR2, hR2, heq2⟩ :=
        ihb (out ++ D1 ++ R1) (Token.op o :: ops) rest (GuardOK_four _)
      have hR1true : ∀ r ∈ R1, popCond o r = true := by
        intro r hr
        obtain ⟨o2, rfl, h2⟩ := hR1 r hr
        exact popCond_true_of_le hassoc (by omega)
      have hole : 3 ≤ prec o := le_of_eq hprec.symm
      refine ⟨D1 ++ R1 ++ D2, R2 ++ [Token.op o], ?_, ?_, ?_⟩
      · rw [rpnOf, ← hDR1, ← hDR2]
        simp
      · intro r hr
        rcases List.mem_append.1 hr with hmem | hmem
        · obtain ⟨o2, h1, h2⟩ := hR2 r hmem
          exact ⟨o2, h1, by omega⟩
        · refine ⟨o, ?_, hole⟩
          simpa using hmem
      · calc toRPNgo ((ts1 ++ Token.op o :: ts2) ++ rest) out ops
            = toRPNgo (ts1 ++ (Token.op o :: (ts2 ++ rest))) out ops := by simp
          _ = toRPNgo (Token.op o :: (ts2 ++ rest)) (out ++ D1) (R1 ++ ops) := heq1
          _ = toRPNgo (ts2 ++ rest)
                ((out ++ D1) ++ (R1 ++ ops).takeWhile (popCond o))
                (Token.op o :: (R1 ++ ops).dropWhile (popCond o)) := by
              rw [toRPNgo_op]
          _ = toRPNgo (ts2 ++ rest) (out ++ D1 ++ R1) (Token.op o :: ops) := by
              rw [takeWhile_append_of_all _ _ hR1true, dropWhile_append_of_all _ _ hR1true,
                guard_takeWhile_nil hg hole, guard_dropWhile_id hg hole, List.append_nil,
                List.append_assoc]
          _ = toRPNgo rest ((out ++ D1 ++ R1) ++ D2) (R2 ++ (Token.op o :: ops)) := heq2
          _ = toRPNgo rest (out ++ (D1 ++ R1 ++ D2)) ((R2 ++ [Token.op o]) ++ ops) := by
              simp
  | ofSum h3 ih =>
      intro out ops rest hg
      obtain ⟨D, R, hDR, hR, heq⟩ := ih out ops rest (GuardOK_mono (by omega) hg)
      refine ⟨D, R, hDR, ?_, heq⟩
      intro r hr
      obtain ⟨o, h1, h2⟩ := hR r hr
      exact ⟨o, h1, by omega⟩
  | @sumStep ts1 e1 o ts2 e2 a ho b iha ihb =>
      intro out ops rest hg
      have hprec : prec o = 2 := by rcases ho with rfl | rfl <;> rfl
      have hassoc : assocL o = true := by rcases ho with rfl | rfl <;> rfl
      obtain ⟨D1, R1, hDR1, hR1, heq1⟩ :=
        iha out ops (Token.op o :: (ts2 ++ rest)) hg
      obtain ⟨D2, R2, hDR2, hR2, heq2⟩ :=
        ihb (out ++ D1 ++ R1) (Token.op o :: ops) rest
          (noPop_op_of_lt (by omega))
      have hR1true : ∀ r ∈ R1, popCond o r = true := by
        intro r hr
        obtain ⟨o2, rfl, h2⟩ := hR1 r hr
        exact popCond_true_of_le hassoc (by omega)
      have hole : 2 ≤ prec o := le_of_eq hprec.symm
      refine ⟨D1 ++ R1 ++ D2, R2 ++ [Token.op o], ?_, ?_, ?_⟩
      · rw [rpnOf, ← hDR1, ← hDR2]
        simp
      · intro r hr
        rcases List.mem_append.1 hr with hmem | hmem
        · obtain ⟨o2, h1, h2⟩ := hR2 r hmem
          exact ⟨o2, h1, by omega⟩
        · refine ⟨o, ?_, hole⟩
          simpa using hmem
      · calc toRPNgo ((ts1 ++ Token.op o :: ts2) ++ rest) out ops
            = toRPNgo (ts1 ++ (Token.op o :: (ts2 ++ rest))) out ops := by simp
          _ = toRPNgo (Token.op o :: (ts2 ++ rest)) (out ++ D1) (R1 ++ ops) := heq1
          _ = toRPNgo (ts2 ++ rest)
                ((out ++ D1) ++ (R1 ++ ops).takeWhile (popCond o))
                (Token.op o :: (R1 ++ ops).dropWhile (popCond o)) := by
              rw [toRPNgo_op]
          _ = toRPNgo (ts2 ++ rest) (out ++ D1 ++ R1) (Token.op o :: ops) := by
              rw [takeWhile_append_of_all _ _ hR1true, dropWhile_append_of_all _ _ hR1true,
                guard_takeWhile_nil hg hole, guard_dropWhile_id hg hole, List.append_nil,
                List.append_assoc]
          _ = toRPNgo rest ((out ++ D1 ++ R1) ++ D2) (R2 ++ (Token.op o :: ops)) := heq2
          _ = toRPNgo rest (out ++ (D1 ++ R1 ++ D2)) ((R2 ++ [Token.op o]) ++ ops) := by
              simp

/-- The converter sends a well-formed infix sequence to the postfix
form of its expression. -/
theorem toRPN_correct {ts : List Token} {e : Expr} (h : Parses 2 ts e) :
    toRPN ts = rpnOf e := by
  obtain ⟨D, R, hDR, _, heq⟩ := shuntInv h [] [] [] trivial
  calc toRPN ts = toRPNgo (ts ++ []) [] [] := by rw [List.append_nil]; rfl
    _ = toRPNgo [] ([] ++ D) (R ++ []) := heq
    _ = D ++ R := by simp [toRPNgo_nil]
    _ = rpnOf e := hDR

/-! ## Evaluation lemmas -/

theorem evalRPNgo_append (P : Platform) (dm : Bool) (xs ys : List Token) :
    ∀ st : List JSVal,
      evalRPNgo P dm (xs ++ ys) st = evalRPNgo P dm ys (evalRPNgo P dm xs st) := by
  induction xs with
  | nil => intro st; rfl
  | cons t ts ih =>
      intro st
      cases t <;> simp only [List.cons_append, evalRPNgo] <;> exact ih _

/-- Evaluating the postfix form of an expression pushes its value. -/
theorem evalRPNgo_rpnOf (P : Platform) (dm : Bool) (e : Expr) :
    ∀ st : List JSVal, evalRPNgo P dm (rpnOf e) st = Expr.evalSpec P e :: st := by
  induction e with
  | lit q => intro st; rfl
  | bin o l r ihl ihr =>
      intro st
      rw [rpnOf, List.append_assoc, evalRPNgo_append, evalRPNgo_append, ihl, ihr]
      rfl

theorem applyOp_nan_right (P : Platform) (o : Op) (a : JSVal) :
    applyOp P o a JSVal.nan = JSVal.nan := by
  cases o <;> cases a <;> rfl

theorem mathFn_nan (P : Platform) (dm : Bool) (f : Fname) :
    mathFn P dm f JSVal.nan = JSVal.nan := by
  cases f <;> rfl

/-- Once `NaN` is on top of the value stack, a run of non-value tokens
(operators, functions, stray parentheses) keeps `NaN` on top. -/
theorem evalRPNgo_nan_top (P : Platform) (dm : Bool) :
    ∀ (D : List Token) (st : List JSVal), (∀ t ∈ D, isValueTok t = false) →
      ∃ st', evalRPNgo P dm D (JSVal.nan :: st) = JSVal.nan :: st' := by
  intro D
  induction D with
  | nil => exact fun st _ => ⟨st, rfl⟩
  | cons t ts ih =>
      intro st hD
      have ht : isValueTok t = false := hD t (List.mem_cons_self t ts)
      have hts : ∀ x ∈ ts, isValueTok x = false :=
        fun x hx => hD x (List.mem_cons_of_mem t hx)
      cases t with
      | num q => exact absurd ht (by simp [isValueTok])
      | konst c => exact absurd ht (by simp [isValueTok])
      | op o =>
          rw [show evalRPNgo P dm (Token.op o :: ts) (JSVal.nan :: st) =
            evalRPNgo P dm ts
              (applyOp P o (st.headD JSVal.undef) JSVal.nan :: st.tail) from rfl,
            applyOp_nan_right]
          exact ih st.tail hts
      | lparen => exact ih st hts
      | rparen => exact ih st hts
      | fn f =>
          rw [show evalRPNgo P dm (Token.fn f :: ts) (JSVal.nan :: st) =
            evalRPNgo P dm ts (mathFn P dm f JSVal.nan :: st) from rfl, mathFn_nan]
          exact ih st hts

theorem stackTok_not_value {t : Token} (h : isStackTok t = true) : isValueTok t = false := by
  cases t <;> first | rfl | exact absurd h (by simp [isStackTok])

theorem mem_takeWhile_pred {α} (p : α → Bool) :
    ∀ {l : List α} {x : α}, x ∈ l.takeWhile p → p x = true := by
  intro l
  induction l with
  | nil => intro x hx; simp [List.takeWhile] at hx
  | cons a t ih =>
      intro x hx
      rw [List.takeWhile_cons] at hx
      by_cases hp : p a
      · rw [if_pos hp] at hx
        rcases List.mem_cons.1 hx with rfl | hx
        · exact hp
        · exact ih hx
      · rw [if_neg hp] at hx
        exact absurd hx (List.not_mem_nil x)

theorem mem_dropWhile_mem {α} (p : α → Bool) :
    ∀ {l : List α} {x : α}, x ∈ l.dropWhile p → x ∈ l := by
  intro l
  induction l with
  | nil => intro x hx; simp [List.dropWhile] at hx
  | cons a t ih =>
      intro x hx
      rw [List.dropWhile_cons] at hx
      by_cases hp : p a
      · rw [if_pos hp] at hx
        exact List.mem_cons_of_mem a (ih hx)
      · rw [if_neg hp] at hx
        exact hx

/-- The output of `toRPN` splits as a prefix produced before the final
drain, which contains no `'('`, followed by the drained stack, which
contains no value token. -/
theorem toRPNgo_split :
    ∀ (ts out ops : List Token), Token.lparen ∉ out →
      (∀ t ∈ ops, isStackTok t = true) →
      ∃ C Dr : List Token, toRPNgo ts out ops = C ++ Dr ∧ Token.lparen ∉ C ∧
        (∀ t ∈ Dr, isValueTok t = false) := by
  intro ts
  induction ts with
  | nil =>
      intro out ops hout hops
      exact ⟨out, ops, rfl, hout, fun t ht => stackTok_not_value (hops t ht)⟩
  | cons t ts ih =>
      intro out ops hout hops
      cases t with
      | num q =>
          refine ih (out ++ [Token.num q]) ops ?_ hops
          simp [hout]
      | konst c =>
          refine ih (out ++ [Token.konst c]) ops ?_ hops
          simp [hout]
      | op o =>
          rw [toRPNgo_op]
          refine ih _ _ ?_ ?_
          · intro hmem
            rcases List.mem_append.1 hmem with hmem | hmem
            · exact hout hmem
            · have := mem_takeWhile_pred (popCond o) hmem
              simp [popCond] at this
          · intro x hx
            rcases List.mem_cons.1 hx with rfl | hx
            · rfl
            · exact hops x (mem_dropWhile_mem _ hx)
      | lparen =>
          rw [toRPNgo_lparen]
          refine ih _ _ hout ?_
          intro x hx
          rcases List.mem_cons.1 hx with rfl | hx
          · rfl
          · exact hops x hx
      | rparen =>
          rw [toRPNgo_rparen]
          refine ih _ _ ?_ ?_
          · intro hmem
            rcases List.mem_append.1 hmem with hmem | hmem
            · exact hout hmem
            · have := mem_takeWhile_pred (fun s => !isLParenTok s) hmem
              simp [isLParenTok] at this
          · intro x hx
            have hx' : x ∈ ops.dropWhile (fun s => !isLParenTok s) := by
              rcases hdw : ops.dropWhile (fun s => !isLParenTok s) with _ | ⟨a, tl⟩
              · rw [hdw] at hx
                exact absurd hx (List.not_mem_nil x)
              · rw [hdw] at hx
                exact hdw ▸ List.mem_cons_of_mem a hx
            exact hops x (mem_dropWhile_mem _ hx')
      | fn f =>
          rw [toRPNgo_fn]
          refine ih _ _ hout ?_
          intro x hx
          rcases List.mem_cons.1 hx with rfl | hx
          · rfl
          · exact hops x hx

/-! ## The claims -/

section Claims

attribute [local semireducible] Rat.add Rat.sub Rat.mul Rat.inv

/-- Claim C1: for every infix token sequence of numbers, the binary
operators and balanced parentheses (captured by the standard
precedence grammar `Parses`, at the sum level `2`), converting with
`toRPN` and then evaluating with `evalRPN` yields the value the
expression has under standard mathematical operator precedence
(`Expr.evalSpec`).  The witness instantiates this at `5 + 3 * 2 = 11`
and `( 2 + 3 ) * 4 = 20`. -/
theorem c1_infix_precedence_correct (P : Platform) (dm : Bool) {ts : List Token}
    {e : Expr} (h : Parses 2 ts e) :
    evalRPN P dm (toRPN ts) = Expr.evalSpec P e := by
  rw [toRPN_correct h]
  unfold evalRPN
  rw [evalRPNgo_rpnOf]
  rfl

/-- Witness for C1: the two concrete examples of the claim. -/
theorem c1_infix_precedence_correct_witness :
    evalRPN dummyPrims false (toRPN [Token.num 5, Token.op Op.add, Token.num 3,
      Token.op Op.mul, Token.num 2]) = JSVal.num 11 ∧
    evalRPN dummyPrims false (toRPN [Token.lparen, Token.num 2, Token.op Op.add,
      Token.num 3, Token.rparen, Token.op Op.mul, Token.num 4]) = JSVal.num 20 := by
  constructor
  · have h : Parses 2
        [Token.num 5, Token.op Op.add, Token.num 3, Token.op Op.mul, Token.num 2]
        (Expr.bin Op.add (Expr.lit 5) (Expr.bin Op.mul (Expr.lit 3) (Expr.lit 2))) :=
      Parses.sumStep (Parses.ofSum (Parses.ofMul (Parses.ofPow (Parses.num 5))))
        (Or.inl rfl)
        (Parses.mulStep (Parses.ofMul (Parses.ofPow (Parses.num 3))) (Or.inl rfl)
          (Parses.ofPow (Parses.num 2)))
    rw [c1_infix_precedence_correct dummyPrims false h]
    decide
  · have h23 : Parses 2 [Token.num 2, Token.op Op.add, Token.num 3]
        (Expr.bin Op.add (Expr.lit 2) (Expr.lit 3)) :=
      Parses.sumStep (Parses.ofSum (Parses.ofMul (Parses.ofPow (Parses.num 2))))
        (Or.inl rfl) (Parses.ofMul (Parses.ofPow (Parses.num 3)))
    have h : Parses 2
        [Token.lparen, Token.num 2, Token.op Op.add, Token.num 3, Token.rparen,
          Token.op Op.mul, Token.num 4]
        (Expr.bin Op.mul (Expr.bin Op.add (Expr.lit 2) (Expr.lit 3)) (Expr.lit 4)) :=
      Parses.ofSum (Parses.mulStep (Parses.ofMul (Parses.ofPow (Parses.paren h23)))
        (Or.inl rfl) (Parses.ofPow (Parses.num 4)))
    rw [c1_infix_precedence_correct dummyPrims false h]
    decide

/-- Claim C2: the power operator is right-associative: `2 ^ 3 ^ 2`
converts to the postfix form of `2 ^ (3 ^ 2)` and evaluates to 512
(not to 64, the value of `(2 ^ 3) ^ 2`). -/
theorem c2_pow_right_assoc (P : Platform) (dm : Bool) :
    toRPN [Token.num 2, Token.op Op.pow, Token.num 3, Token.op Op.pow, Token.num 2] =
      rpnOf (Expr.bin Op.pow (Expr.lit 2) (Expr.bin Op.pow (Expr.lit 3) (Expr.lit 2))) ∧
    evalRPN P dm
      (toRPN [Token.num 2, Token.op Op.pow, Token.num 3, Token.op Op.pow, Token.num 2]) =
      JSVal.num 512 ∧
    (512 : ℚ) ≠ 64 := by
  refine ⟨by decide, ?_, by decide⟩
  rfl

/-- Claim C3 counterexample: on the claim's own example `( 2 + 3` the
source converter does not fail at all — it has no failure result — and
instead returns an ordinary token list with the unmatched `'('` passed
through to the output; only the specification-side converter
`specToRPN` produces the claimed `MalformedExpression`. -/
theorem c3_counterexample :
    toRPN [Token.lparen, Token.num 2, Token.op Op.add, Token.num 3] =
      [Token.num 2, Token.num 3, Token.op Op.add, Token.lparen] ∧
    specToRPN [Token.lparen, Token.num 2, Token.op Op.add, Token.num 3] =
      Except.error CalcError.malformedExpression := by
  exact ⟨by decide, rfl⟩

/-- Claim C3 amended: the converter never reports `MalformedExpression`.
An `OpenParen` still on the stack at end of input is drained into the
postfix output, where the evaluator treats it as an unknown token and
the result is `NaN` (surfacing only as the generic `Error` display); a
`CloseParen` that empties the stack without finding an `OpenParen` is
silently tolerated (`2 + 3 )` converts to `2 3 +`). -/
theorem c3_amended :
    (∀ (ts : List Token) (P : Platform) (dm : Bool),
      Token.lparen ∈ toRPN ts → evalRPN P dm (toRPN ts) = JSVal.nan) ∧
    toRPN [Token.num 2, Token.op Op.add, Token.num 3, Token.rparen] =
      [Token.num 2, Token.num 3, Token.op Op.add] := by
  constructor
  · intro ts P dm hmem
    obtain ⟨C, Dr, hsplit, hC, hDr⟩ :=
      toRPNgo_split ts [] [] (List.not_mem_nil _) (fun t ht => absurd ht (List.not_mem_nil t))
    have hsplit' : toRPN ts = C ++ Dr := hsplit
    have hmemDr : Token.lparen ∈ Dr := by
      rcases List.mem_append.1 (hsplit' ▸ hmem) with h | h
      · exact absurd h hC
      · exact h
    obtain ⟨D1, D2, hDr2⟩ := List.append_of_mem hmemDr
    subst hDr2
    have hD2 : ∀ t ∈ D2, isValueTok t = false := by
      intro t ht
      exact hDr t (by simp [ht])
    rw [evalRPN, hsplit', evalRPNgo_append, evalRPNgo_append]
    have hstep : ∀ st : List JSVal,
        evalRPNgo P dm (Token.lparen :: D2) st = evalRPNgo P dm D2 (JSVal.nan :: st.tail) :=
      fun st => rfl
    rw [hstep]
    obtain ⟨st', hst⟩ := evalRPNgo_nan_top P dm D2
      ((evalRPNgo P dm D1 (evalRPNgo P dm C [])).tail) hD2
    rw [hst]
    rfl
  · decide

/-- Witness for the amended C3, at the claim's example `( 2 + 3`. -/
theorem c3_amended_witness :
    Token.lparen ∈ toRPN [Token.lparen, Token.num 2, Token.op Op.add, Token.num 3] ∧
    evalRPN dummyPrims false
      (toRPN [Token.lparen, Token.num 2, Token.op Op.add, Token.num 3]) = JSVal.nan :=
  ⟨by decide, c3_amended.1 _ dummyPrims false (by decide)⟩

/-- Claim C4 counterexample: evaluating the expression consisting only
of the operator `+` does not fail with a distinct `StackUnderflow`:
the source evaluator pops `undefined` twice, computes
`undefined + undefined = NaN`, and returns `NaN`; only the
specification-side evaluator `specEvalRPN` produces the claimed
`StackUnderflow`. -/
theorem c4_counterexample :
    evalRPN dummyPrims false [Token.op Op.add] = JSVal.nan ∧
    specEvalRPN dummyPrims false [Token.op Op.add] =
      Except.error CalcError.stackUnderflow := by
  exact ⟨by decide, rfl⟩

/-- Claim C4 amended: a pop from an empty value stack yields
`undefined`, not a distinct error; the `undefined` flows into the
operator or function application.  At step level: a binary operator
reached with an empty stack computes on two `undefined` operands and a
function on one, both giving `NaN`; a binary operator reached with a
single value `v` computes `apply(undefined, v)`, which is `NaN` in
every case except the ECMA-262 exponent-zero quirk
`Math.pow(undefined, 0) = 1` — so the postfix sequence `0 ^` evaluates
to `1`, while a lone operator or lone function evaluates to `NaN`.
Nothing ever fails with `StackUnderflow`; a `NaN` result surfaces only
as the generic `Error` display. -/
theorem c4_amended (P : Platform) (dm : Bool) :
    (∀ (o : Op) (ts : List Token), evalRPNgo P dm (Token.op o :: ts) [] =
        evalRPNgo P dm ts [applyOp P o JSVal.undef JSVal.undef]) ∧
    (∀ (o : Op) (v : JSVal) (ts : List Token), evalRPNgo P dm (Token.op o :: ts) [v] =
        evalRPNgo P dm ts [applyOp P o JSVal.undef v]) ∧
    (∀ (f : Fname) (ts : List Token), evalRPNgo P dm (Token.fn f :: ts) [] =
        evalRPNgo P dm ts [mathFn P dm f JSVal.undef]) ∧
    (∀ o : Op, applyOp P o JSVal.undef JSVal.undef = JSVal.nan) ∧
    (∀ f : Fname, mathFn P dm f JSVal.undef = JSVal.nan) ∧
    (∀ (o : Op) (q : ℚ), applyOp P o JSVal.undef (JSVal.num q) =
        if o = Op.pow ∧ q = 0 then JSVal.num 1 else JSVal.nan) ∧
    (∀ o : Op, evalRPN P dm [Token.op o] = JSVal.nan) ∧
    (∀ f : Fname, evalRPN P dm [Token.fn f] = JSVal.nan) ∧
    evalRPN P dm [Token.num 0, Token.op Op.pow] = JSVal.num 1 := by
  refine ⟨fun o ts => rfl, fun o v ts => rfl, fun f ts => rfl, ?_, ?_, ?_, ?_, ?_, ?_⟩
  · intro o
    cases o <;> rfl
  · intro f
    cases f <;> rfl
  · intro o q
    cases o with
    | pow =>
        by_cases hq : q = 0
        · subst hq
          simp [applyOp, jsPow]
        · simp [applyOp, jsPow, hq]
    | add => simp [applyOp, jsAdd]
    | sub => simp [applyOp, jsSub]
    | mul => simp [applyOp, jsMul]
    | div => simp [applyOp, jsDiv]
  · intro o
    cases o <;> rfl
  · intro f
    cases f <;> rfl
  · rfl

/-- Claim C5 counterexample: end of input with more than one value on
the stack does not fail with `MalformedExpression`: on `[2, 3]` the
source evaluator returns the top value `3`, silently discarding the
`2`; only the specification-side evaluator `specEvalRPN` produces the
claimed error. -/
theorem c5_counterexample :
    evalRPN dummyPrims false [Token.num 2, Token.num 3] = JSVal.num 3 ∧
    specEvalRPN dummyPrims false [Token.num 2, Token.num 3] =
      Except.error CalcError.malformedExpression := by
  exact ⟨by decide, rfl⟩

/-- Claim C5 amended: the evaluator ends with `return stack.pop()`:
with exactly one value left that value is the result (this half of the
claim is right), with several values left the top value is returned
and the rest are silently discarded, and with nothing left the result
is `undefined` — never a `MalformedExpression` failure. -/
theorem c5_amended :
    (∀ (P : Platform) (dm : Bool) (rpn : List Token) (v : JSVal),
      evalRPNgo P dm rpn [] = [v] → evalRPN P dm rpn = v) ∧
    (∀ (P : Platform) (dm : Bool) (rpn : List Token) (v w : JSVal) (st : List JSVal),
      evalRPNgo P dm rpn [] = v :: w :: st → evalRPN P dm rpn = v) ∧
    (∀ (P : Platform) (dm : Bool) (q1 q2 : ℚ),
      evalRPN P dm [Token.num q1, Token.num q2] = JSVal.num q2) ∧
    (∀ (P : Platform) (dm : Bool), evalRPN P dm [] = JSVal.undef) := by
  refine ⟨?_, ?_, ?_, ?_⟩
  · intro P dm rpn v h
    rw [evalRPN, h]
    rfl
  · intro P dm rpn v w st h
    rw [evalRPN, h]
    rfl
  · intro P dm q1 q2
    rfl
  · intro P dm
    rfl

/-- Witness for the amended C5: on `[2, 3]` the final stack is
`[3, 2]` and the returned result is its top `3`. -/
theorem c5_amended_witness :
    evalRPNgo dummyPrims false [Token.num 2, Token.num 3] [] =
      [JSVal.num 3, JSVal.num 2] ∧
    evalRPN dummyPrims false [Token.num 2, Token.num 3] = JSVal.num 3 :=
  ⟨by decide, c5_amended.2.1 dummyPrims false [Token.num 2, Token.num 3]
    (JSVal.num 3) (JSVal.num 2) [] (by decide)⟩

/-- Claim C6: a Function token is pushed onto the operator stack and
popped to output identically to an operator of lowest precedence: the
source pop condition agrees with the uniform condition `specPopCond`
in which a function has precedence `0` (so an incoming operator, all
of precedence at least 2, never pops it), a `')'` pops a function
above the matching `'('` to output, and the end-of-input drain pops
every remaining stack entry, functions included, to output. -/
theorem c6_function_stack :
    (∀ (o : Op) (s : Token), popCond o s = specPopCond o s) ∧
    (∀ (f : Fname) (ts out ops : List Token),
      toRPNgo (Token.fn f :: ts) out ops = toRPNgo ts out (Token.fn f :: ops)) ∧
    (∀ out ops : List Token, toRPNgo [] out ops = out ++ ops) ∧
    (∀ (f : Fname) (ts out ops : List Token),
      toRPNgo (Token.rparen :: ts) out (Token.fn f :: Token.lparen :: ops) =
        toRPNgo ts (out ++ [Token.fn f]) ops) := by
  refine ⟨?_, fun f ts out ops => rfl, fun out ops => rfl, fun f ts out ops => rfl⟩
  intro o s
  cases s with
  | op o2 => rfl
  | fn f => cases o <;> rfl
  | _ => rfl

/-- Claim C9 (code bug): the README promises that after a displayed
`Error` the next numeric input starts afresh, but `inputDigit` never
checks the display.  Advanced engine: from the initial state, keying
`5`, `+`, `0` and then `1/x` displays `Error` (reciprocal of zero)
while leaving `exprTokens = ["5", "+"]` and
`currentToken = "Infinity"` behind; the next digit `7` then yields
current token and display `"Infinity7"` with the stale `exprTokens`
still in place, instead of a fresh expression holding only `7`.
Basic engine: `1/x` on the initial `0` displays `Error`, and the next
digit `7` makes the display `"Error7"`. -/
theorem c9_error_not_reset (P : Platform) :
    let s4 := Engine.applyUnary P UnaryOp.reciprocal
      (Engine.inputDigit "0" (Engine.handleOperator "add"
        (Engine.inputDigit "5" Engine.initState)))
    let b1 := Basic.applyUnary P UnaryOp.reciprocal Basic.initState
    s4.displayValue = "Error" ∧ s4.exprTokens = ["5", "+"] ∧
    s4.currentToken = "Infinity" ∧
    (Engine.inputDigit "7" s4).currentToken = "Infinity7" ∧
    (Engine.inputDigit "7" s4).displayValue = "Infinity7" ∧
    (Engine.inputDigit "7" s4).exprTokens = ["5", "+"] ∧
    b1.displayValue = "Error" ∧
    (Basic.inputDigit "7" b1).displayValue = "Error7" := by
  exact ⟨rfl, rfl, rfl, rfl, rfl, rfl, rfl, rfl⟩

/-- Claim C10: the memory operations change only the memory register —
for every engine state, display value, current token, expression
tokens, first operand, operator and waiting flag are untouched by
`memoryClear`, `memoryPlus` and `memoryMinus` — and when the display
value does not parse as a number, `memoryPlus` and `memoryMinus` do
not even change the memory. -/
theorem c10_memory_frame (s : Engine.CalcState) :
    sameButMemory (Engine.memoryClear s) s ∧
    sameButMemory (Engine.memoryPlus s) s ∧
    sameButMemory (Engine.memoryMinus s) s ∧
    (jsParseFloat s.displayValue = JSVal.nan →
      Engine.memoryPlus s = s ∧ Engine.memoryMinus s = s) := by
  refine ⟨⟨rfl, rfl, rfl, rfl, rfl, rfl, rfl⟩, ?_, ?_, ?_⟩
  · by_cases h : jsParseFloat s.displayValue = JSVal.nan <;>
      simp [Engine.memoryPlus, h, sameButMemory]
  · by_cases h : jsParseFloat s.displayValue = JSVal.nan <;>
      simp [Engine.memoryMinus, h, sameButMemory]
  · intro h
    constructor <;> simp [Engine.memoryPlus, Engine.memoryMinus, h]

/-- Witness for C10 at a state whose display shows `Error`. -/
theorem c10_memory_frame_witness :
    jsParseFloat "Error" = JSVal.nan ∧
    (Engine.memoryPlus { Engine.initState with displayValue := "Error" } =
        { Engine.initState with displayValue := "Error" } ∧
      Engine.memoryMinus { Engine.initState with displayValue := "Error" } =
        { Engine.initState with displayValue := "Error" }) :=
  ⟨by decide, (c10_memory_frame { Engine.initState with displayValue := "Error" }).2.2.2
    (by decide)⟩

end Claims

end Calculator
